import Mathlib

/-!
Verification development for the Mavoo invoice splitter (`src/app.py`).

The program is a Flask app whose only decision-making code is
`split_invoices(input_pdf, gstin_filter)`: it scans the pages of a PDF in
order, extracts each page's text, tests two regular expressions

  doc_pattern = re.compile(r"Document No. : (\S+)")
  gst_pattern = re.compile(r"Recipient\s+:\s+GSTIN\s+:\s+(\S+)")

and groups pages into invoices: a page matching BOTH patterns opens a new
invoice (finalizing the previous one, which is written to disk when the
optional GSTIN filter is absent, empty, or equal to the captured GSTIN up
to `str.upper`), any other page is appended to the open invoice if one
exists and dropped otherwise; at end of document the open invoice is
finalized the same way.

We embed the page-level regex matching at the character level (pages are
their extracted text, a `String`), the splitting loop as a structural
recursion producing the list of written invoices (each carrying its
captured document id, captured GSTIN and the 0-based indices of its pages;
writing page indices models `new_pdf.insert_pdf(doc, from_page=p, to_page=p)`,
which copies page `p` of the source document, so the indices determine the
output's page content), and the upload endpoint's validation logic.
Filename sanitization (`werkzeug.utils.secure_filename`) is outside the
repository; it is kept as an abstract function parameter `sanitize`.
-/

/-! ## Data model and operations (from `src/app.py`) -/

/-- Python's `\s` (whitespace) on the ASCII fragment used throughout this
development: space, tab, newline, carriage return, vertical tab, form feed.
(The `str`-mode `re` module also accepts some further Unicode whitespace;
every text in the repository's patterns and in the claims is ASCII.) -/
def pyIsSpace (c : Char) : Bool :=
  c = ' ' || c = '\t' || c = '\n' || c = '\r' || c = '\x0b' || c = '\x0c'

/-- Consume an exact literal at the head of the input; return the rest. -/
def dropLit : List Char → List Char → Option (List Char)
  | [], s => some s
  | _ :: _, [] => none
  | l :: ls, c :: cs => if c = l then dropLit ls cs else none

/-- `\s+` before a non-whitespace continuation: require at least one
whitespace character and consume the maximal whitespace run.  (In both
places the source patterns use `\s+`, the next pattern element starts with
a non-whitespace character, so the backtracking regex engine is forced to
the maximal run; maximal munch is therefore a faithful model.) -/
def dropWs1 : List Char → Option (List Char)
  | [] => none
  | c :: cs => if pyIsSpace c then some (cs.dropWhile pyIsSpace) else none

/-- Greedy `(\S+)` with nothing after it: split off the maximal leading
run of non-whitespace characters. -/
def takeNonWs : List Char → List Char × List Char
  | [] => ([], [])
  | c :: cs =>
    if pyIsSpace c then ([], c :: cs)
    else
      let p := takeNonWs cs
      (c :: p.1, p.2)

/-- `.`: consume any single character except a newline (the `re` module's
dot without `DOTALL`). -/
def anyNotNl : List Char → Option (List Char)
  | [] => none
  | c :: cs => if c = '\n' then none else some cs

/-- Greedy `(\S+)` at the end of the pattern: the maximal leading
non-whitespace run, failing when it is empty. -/
def tokenOf (s : List Char) : Option (List Char) :=
  if (takeNonWs s).1.isEmpty then none else some (takeNonWs s).1

/-- Attempt of `doc_pattern = "Document No. : (\S+)"` anchored at the start
of `s`: the literal `Document No`, then `.` (any single character except
newline), then the literal ` : `, then a captured non-empty maximal
non-whitespace token.  Returns the capture. -/
def docMatchAt (s : List Char) : Option (List Char) :=
  (dropLit "Document No".data s).bind fun r1 =>
  (anyNotNl r1).bind fun r2 =>
  (dropLit " : ".data r2).bind fun r3 =>
  tokenOf r3

/-- Attempt of `gst_pattern = "Recipient\s+:\s+GSTIN\s+:\s+(\S+)"` anchored
at the start of `s`.  Returns the capture. -/
def gstMatchAt (s : List Char) : Option (List Char) :=
  (dropLit "Recipient".data s).bind fun r1 =>
  (dropWs1 r1).bind fun r2 =>
  (dropLit ":".data r2).bind fun r3 =>
  (dropWs1 r3).bind fun r4 =>
  (dropLit "GSTIN".data r4).bind fun r5 =>
  (dropWs1 r5).bind fun r6 =>
  (dropLit ":".data r6).bind fun r7 =>
  (dropWs1 r7).bind fun r8 =>
  tokenOf r8

/-- `re.search`: try the anchored match at every start position, left to
right (including the empty suffix), and return the first success. -/
def reSearch (mAt : List Char → Option (List Char)) : List Char → Option (List Char)
  | [] => mAt []
  | c :: cs =>
    match mAt (c :: cs) with
    | some r => some r
    | none => reSearch mAt cs

/-- `doc_pattern.search(text)`, returning `group(1)`. -/
def docSearch (s : List Char) : Option (List Char) :=
  reSearch docMatchAt s

/-- `gst_pattern.search(text)`, returning `group(1)`. -/
def gstSearch (s : List Char) : Option (List Char) :=
  reSearch gstMatchAt s

/-- The `doc_match and gst_match` test of `split_invoices` together with the
captured `(doc_match.group(1), gst_match.group(1))`. -/
def pageMatch (t : String) : Option (String × String) :=
  match docSearch t.data, gstSearch t.data with
  | some d, some g => some (String.mk d, String.mk g)
  | _, _ => none

/-- A marker page: a page whose text matches both patterns and hence opens a
new invoice. -/
def isMarkerPage (t : String) : Bool :=
  (pageMatch t).isSome

/-- Python `str.upper` on the ASCII fragment (`Char.toUpper` uppercases
exactly `a`–`z`). -/
def pyUpper (s : String) : String :=
  String.mk (s.data.map Char.toUpper)

/-- The guard `not gstin_filter or gstin_filter.upper() == current_gstin.upper()`.
`none` models Python `None`; `some ""` is the falsy empty string the upload
route passes when the form field is absent. -/
def passesFilter (f : Option String) (g : String) : Bool :=
  match f with
  | none => true
  | some s => s.isEmpty || (pyUpper s == pyUpper g)

/-- `not gstin_filter`: no GSTIN filter is set (Python `None` or `""`, both
falsy). -/
def filterUnset (f : Option String) : Bool :=
  match f with
  | none => true
  | some s => s.isEmpty

/-- An invoice: the captured document id and GSTIN of the marker page that
opened it, plus the 0-based indices of its pages in the source document, in
order.  The same shape serves as `invoice_data`/`invoice_pages` while open
and as a written output once finalized. -/
structure Invoice where
  docId : String
  gstin : String
  pages : List Nat
  deriving Repr, DecidableEq

/-- The f-string `f"{invoice_data[0]}_{invoice_data[1]}.pdf"` before
sanitization. -/
def rawName (w : Invoice) : String :=
  w.docId ++ "_" ++ w.gstin ++ ".pdf"

/-- Finalization of the (possibly absent) open invoice: write it (emit it
into the output list) exactly when the filter guard passes, otherwise
discard it. -/
def finalizeInto (f : Option String) : Option Invoice → List Invoice
  | none => []
  | some inv => if passesFilter f inv.gstin then [inv] else []

/-- The `else` branch of the page loop: `invoice_pages.append(page_num)`
when an invoice is open, nothing otherwise. -/
def appendPage (i : Nat) : Option Invoice → Option Invoice
  | none => none
  | some inv => some { inv with pages := inv.pages ++ [i] }

/-- The page loop of `split_invoices`, processing the remaining page texts
`ts` whose first page has index `i`, with `cur` the open invoice.  A page
matching both patterns finalizes the open invoice and opens a new one at
this page; any other page is appended to the open invoice if there is one.
At end of document the open invoice is finalized.  The result is the list
of written invoices in writing order. -/
def splitGo (f : Option String) : Nat → List String → Option Invoice → List Invoice
  | _, [], cur => finalizeInto f cur
  | i, t :: ts, cur =>
    match pageMatch t with
    | some (d, g) => finalizeInto f cur ++ splitGo f (i + 1) ts (some ⟨d, g, [i]⟩)
    | none => splitGo f (i + 1) ts (appendPage i cur)

/-- `split_invoices` on a document given as the list of its pages' extracted
texts: the written invoices, in order. -/
def splitWrites (texts : List String) (f : Option String) : List Invoice :=
  splitGo f 0 texts none

/-- The list `split_files` returned by `split_invoices`: the sanitized
filename of each written invoice, in writing order. -/
def split_invoices (sanitize : String → String) (texts : List String)
    (f : Option String) : List String :=
  (splitWrites texts f).map fun w => sanitize (rawName w)

/-- Indices (counting from `i`) of the marker pages among `ts`. -/
def markerIndicesFrom : Nat → List String → List Nat
  | _, [] => []
  | i, t :: ts =>
    if isMarkerPage t then i :: markerIndicesFrom (i + 1) ts
    else markerIndicesFrom (i + 1) ts

/-- 0-based indices of the document's marker pages, in order. -/
def markerIndices (texts : List String) : List Nat :=
  markerIndicesFrom 0 texts

/-- The GSTINs captured by the document's marker pages, in page order. -/
def capturedGstins (texts : List String) : List String :=
  texts.filterMap fun t => (pageMatch t).map Prod.snd

/-- Specification-side description of the splitting: given the (sorted)
list of marker-page indices and the page count `n`, the page-index groups
of the expected outputs — each group starts at a marker index and runs up
to, but excluding, the next marker index (or `n` for the last group). -/
def segSpec (n : Nat) : List Nat → List (List Nat)
  | [] => []
  | [m] => [List.range' m (n - m)]
  | m :: m2 :: ms => List.range' m (m2 - m) :: segSpec n (m2 :: ms)

/-- `allowed_file`: the filename contains a dot and the substring after the
last dot, lowercased, is `pdf` or `zip`. `afterLastDot` returns the
characters after the last `.`, or `none` when there is no dot — so that
`(afterLastDot s).isSome` is Python's `'.' in filename` and its value is
`filename.rsplit('.', 1)[1]`. -/
def afterLastDot : List Char → Option (List Char)
  | [] => none
  | c :: cs =>
    match afterLastDot cs with
    | some r => some r
    | none => if c = '.' then some cs else none

/-- `allowed_file(filename)` from `src/app.py`. -/
def allowed_file (filename : String) : Bool :=
  match afterLastDot filename.data with
  | none => false
  | some ext =>
    decide (ext.map Char.toLower = "pdf".data) || decide (ext.map Char.toLower = "zip".data)

/-- Outcome of the upload endpoint's synchronous validation. -/
inductive UploadOutcome where
  | clientError (status : Nat) (msg : String)
  | accepted
  deriving Repr, DecidableEq

/-- The validation prelude of `upload_pdf` (`src/app.py` lines 37–47): no
file part, empty filename, or disallowed extension each return a 400 JSON
error before any processing; otherwise the file is accepted for
processing. -/
def upload_pdf (filePresent : Bool) (filename : String) : UploadOutcome :=
  if !filePresent then .clientError 400 "No file part"
  else if filename = "" then .clientError 400 "No selected file"
  else if !allowed_file filename then
    .clientError 400 "Invalid file type. Only PDF and ZIP files are allowed."
  else .accepted

/-- Page-index groups produced from position `i` on, given an open invoice
already holding pages `ps`: the loop-shaped companion of `segSpec`. -/
def segAux : List Nat → Nat → List String → List (List Nat)
  | ps, _, [] => [ps]
  | ps, i, t :: ts =>
    if isMarkerPage t then ps :: segAux [i] (i + 1) ts
    else segAux (ps ++ [i]) (i + 1) ts

/-- Page-index groups produced from position `i` on with no invoice open. -/
def segNone : Nat → List String → List (List Nat)
  | _, [] => []
  | i, t :: ts =>
    if isMarkerPage t then segAux [i] (i + 1) ts
    else segNone (i + 1) ts

/-- A concrete marker page (matches both patterns, captures `D1`/`G1`). -/
def pageA : String := "Document No. : D1\nRecipient : GSTIN : G1"

/-- A concrete marker page (matches both patterns, captures `D2`/`G2`). -/
def pageB : String := "Document No. : D2\nRecipient : GSTIN : G2"

/-- A concrete four-page document: a non-marker cover page, a marker page,
a non-marker body page, and a second marker page. -/
def exTexts : List String := ["cover", pageA, "body", pageB]

/-- The condition "the filename's extension, compared case-insensitively, is
neither `pdf` nor `zip`", stated declaratively: no decomposition of the name
as `pre ++ "." ++ ext` with a dot-free `ext` (`ext` is then necessarily the
part after the last dot; for a dotless name this holds vacuously) has
`ext` lowercasing to `pdf` or `zip`. -/
def NoGoodExt (s : List Char) : Prop :=
  ∀ pre ext, s = pre ++ '.' :: ext → '.' ∉ ext →
    ¬(ext.map Char.toLower = "pdf".data ∨ ext.map Char.toLower = "zip".data)

/-- One `new_pdf.save(output_path)`: the output directory maps the written
path to the written page set, previous content at the same path being
overwritten. -/
def diskWrite (sanitize : String → String) (d : String → Option (List Nat))
    (w : Invoice) : String → Option (List Nat) :=
  fun p => if p = sanitize (rawName w) then some w.pages else d p

/-- The output directory after all writes of a run, in writing order,
starting from an empty directory. -/
def diskAfter (sanitize : String → String) (ws : List Invoice) :
    String → Option (List Nat) :=
  ws.foldl (diskWrite sanitize) fun _ => none

/-- A two-page document both of whose pages are the same marker page. -/
def dupTexts : List String := [pageA, pageA]

/-- A run of one or more whitespace characters (`\s+`). -/
def WsRun (w : List Char) : Prop :=
  w ≠ [] ∧ ∀ x ∈ w, pyIsSpace x = true

/-- The remainder after a maximal `(\S+)` capture: empty, or starting with
whitespace. -/
def MaxRest (rest : List Char) : Prop :=
  rest = [] ∨ ∃ r rs, rest = r :: rs ∧ pyIsSpace r = true

/-- Declarative anchored match of `doc_pattern` with capture `tok`: the
input is the literal `Document No`, one character `c` other than a newline
(the regex metacharacter `.` of the source pattern — not a literal dot),
the literal ` : `, then the maximal non-empty non-whitespace token `tok`. -/
def DocCapAt (s tok : List Char) : Prop :=
  ∃ c rest, s = "Document No".data ++ (c :: (" : ".data ++ (tok ++ rest))) ∧
    c ≠ '\n' ∧ tok ≠ [] ∧ (∀ x ∈ tok, pyIsSpace x = false) ∧ MaxRest rest

/-- Declarative anchored match of `gst_pattern` with capture `tok`: the
literals `Recipient`, `:`, `GSTIN`, `:` separated by runs of one or more
whitespace characters (the `\s+` of the source pattern — not single
spaces), then the maximal non-empty non-whitespace token `tok`. -/
def GstCapAt (s tok : List Char) : Prop :=
  ∃ w1 w2 w3 w4 rest,
    s = "Recipient".data ++ (w1 ++ (":".data ++ (w2 ++ ("GSTIN".data
        ++ (w3 ++ (":".data ++ (w4 ++ (tok ++ rest)))))))) ∧
    WsRun w1 ∧ WsRun w2 ∧ WsRun w3 ∧ WsRun w4 ∧
    tok ≠ [] ∧ (∀ x ∈ tok, pyIsSpace x = false) ∧ MaxRest rest

/-- The spec's (claim C3's) reading of a pattern: at some position of `s`
the exact literal `label` occurs, immediately followed by at least one
non-whitespace character (the start of a non-whitespace token). -/
def litTokenAt (label s : List Char) : Bool :=
  match dropLit label s with
  | some (c :: _) => !pyIsSpace c
  | _ => false

/-- `s` contains the literal `label` immediately followed by a
non-whitespace token, at any position. -/
def hasLitToken (label : List Char) : List Char → Bool
  | [] => litTokenAt label []
  | c :: cs => litTokenAt label (c :: cs) || hasLitToken label cs

/-- A page the source's `doc_pattern` matches — the regex `.` in
`Document No. : ` matching the character `,` — although the text does not
contain the fixed literal label `Document No. : ` anywhere. -/
def pageCex : String := "Document No, : D1\nRecipient : GSTIN : G1"

/-- Observable operations of a `split_invoices` run: a `page.get_text` on a
page index with its outcome, a `new_pdf.save` on an output name with its
outcome (`none` = success), and the `doc.close()` of the `finally` block. -/
inductive Ev (ε : Type) where
  | readEv (i : Nat) (r : Except ε String)
  | saveEv (name : String) (r : Option ε)
  | closeEv
  deriving Repr

/-- The fallible PDF-library operations `split_invoices` performs: reading
a page's text and saving an assembled output (`none` = success). -/
structure PdfOps (ε : Type) where
  pageText : Nat → Except ε String
  save : String → Option ε

/-- The `try` body of `split_invoices` over pages `i, …, i + k - 1`, with
`cur` the open invoice and `acc` the invoices written so far: each page is
read (aborting with the read's error on failure), marker pages finalize the
open invoice — saving it when the filter passes, aborting with the save's
error on failure — and open a new one; after the loop the last open invoice
is finalized the same way.  Returns the result (the written invoices, or
the first error raised) together with the trace of performed operations. -/
def runBody {ε : Type} (ops : PdfOps ε) (f : Option String) :
    Nat → Nat → Option Invoice → List Invoice → Except ε (List Invoice) × List (Ev ε)
  | _, 0, cur, acc =>
    match cur with
    | none => (Except.ok acc, [])
    | some inv =>
      if passesFilter f inv.gstin then
        match ops.save (rawName inv) with
        | none => (Except.ok (acc ++ [inv]), [Ev.saveEv (rawName inv) none])
        | some e => (Except.error e, [Ev.saveEv (rawName inv) (some e)])
      else (Except.ok acc, [])
  | i, k + 1, cur, acc =>
    match ops.pageText i with
    | Except.error e => (Except.error e, [Ev.readEv i (Except.error e)])
    | Except.ok t =>
      match pageMatch t with
      | some (d, g) =>
        match cur with
        | none =>
          let r := runBody ops f (i + 1) k (some ⟨d, g, [i]⟩) acc
          (r.1, Ev.readEv i (Except.ok t) :: r.2)
        | some inv =>
          if passesFilter f inv.gstin then
            match ops.save (rawName inv) with
            | some e =>
              (Except.error e, [Ev.readEv i (Except.ok t), Ev.saveEv (rawName inv) (some e)])
            | none =>
              let r := runBody ops f (i + 1) k (some ⟨d, g, [i]⟩) (acc ++ [inv])
              (r.1, Ev.readEv i (Except.ok t) :: Ev.saveEv (rawName inv) none :: r.2)
          else
            let r := runBody ops f (i + 1) k (some ⟨d, g, [i]⟩) acc
            (r.1, Ev.readEv i (Except.ok t) :: r.2)
      | none =>
        let r := runBody ops f (i + 1) k (appendPage i cur) acc
        (r.1, Ev.readEv i (Except.ok t) :: r.2)

/-- `split_invoices` on an `n`-page document with fallible operations: the
`try` body runs, the `except` clause re-raises unchanged, and the `finally`
clause closes the source document on both the success and the error path —
so the trace always ends with `closeEv` and the result is the body's. -/
def split_invoices_run {ε : Type} (ops : PdfOps ε) (n : Nat) (f : Option String) :
    Except ε (List Invoice) × List (Ev ε) :=
  let r := runBody ops f 0 n none []
  (r.1, r.2 ++ [Ev.closeEv])

/-- The event is a read or a save that failed with error `e`. -/
def evFails {ε : Type} : Ev ε → ε → Prop
  | Ev.readEv _ (Except.error e2), e => e2 = e
  | Ev.saveEv _ (some e2), e => e2 = e
  | _, _ => False

/-- Concrete fallible operations: page 0's text read fails with `boom`;
all saves succeed. -/
def opsCex : PdfOps String :=
  ⟨fun i => if i = 0 then Except.error "boom" else Except.ok "x", fun _ => none⟩

/-! ## Theorems -/

theorem passesFilter_of_unset (f : Option String) (g : String)
    (hf : filterUnset f = true) : passesFilter f g = true := by
  cases f with
  | none => rfl
  | some s => simp [filterUnset] at hf; simp [passesFilter, hf]

theorem splitGo_open (f : Option String) (hf : filterUnset f = true) :
    ∀ (ts : List String) (i : Nat) (d g : String) (ps : List Nat),
      (splitGo f i ts (some ⟨d, g, ps⟩)).map Invoice.pages = segAux ps i ts := by
  intro ts
  induction ts with
  | nil =>
    intro i d g ps
    simp [splitGo, finalizeInto, segAux, passesFilter_of_unset f _ hf]
  | cons t ts ih =>
    intro i d g ps
    cases h : pageMatch t with
    | some p =>
      obtain ⟨d2, g2⟩ := p
      have hm : isMarkerPage t = true := by simp [isMarkerPage, h]
      simp [splitGo, h, segAux, hm, finalizeInto, passesFilter_of_unset f _ hf, ih]
    | none =>
      have hm : isMarkerPage t = false := by simp [isMarkerPage, h]
      simp [splitGo, h, segAux, hm, appendPage, ih]

theorem splitGo_closed (f : Option String) (hf : filterUnset f = true) :
    ∀ (ts : List String) (i : Nat),
      (splitGo f i ts none).map Invoice.pages = segNone i ts := by
  intro ts
  induction ts with
  | nil => intro i; simp [splitGo, finalizeInto, segNone]
  | cons t ts ih =>
    intro i
    cases h : pageMatch t with
    | some p =>
      obtain ⟨d2, g2⟩ := p
      have hm : isMarkerPage t = true := by simp [isMarkerPage, h]
      simp [splitGo, h, segNone, hm, finalizeInto, splitGo_open f hf]
    | none =>
      have hm : isMarkerPage t = false := by simp [isMarkerPage, h]
      simp [splitGo, h, segNone, hm, appendPage, ih]

theorem markerIndicesFrom_bounds :
    ∀ (ts : List String) (i m : Nat), m ∈ markerIndicesFrom i ts →
      i ≤ m ∧ m < i + ts.length := by
  intro ts
  induction ts with
  | nil => intro i m h; simp [markerIndicesFrom] at h
  | cons t ts ih =>
    intro i m h
    by_cases hm : isMarkerPage t
    · simp [markerIndicesFrom, hm] at h
      rcases h with h | h
      · subst h; simp
      · have := ih (i + 1) m h
        constructor <;> [omega; (simp; omega)]
    · simp [markerIndicesFrom, hm] at h
      have := ih (i + 1) m h
      constructor <;> [omega; (simp; omega)]

theorem range'_cons_of_lt (i m : Nat) (h : i < m) :
    i :: List.range' (i + 1) (m - (i + 1)) = List.range' i (m - i) := by
  have hm : m - i = (m - (i + 1)) + 1 := by omega
  rw [hm, List.range'_succ]

theorem segAux_eq :
    ∀ (ts : List String) (i : Nat) (ps : List Nat),
      segAux ps i ts =
        match markerIndicesFrom i ts with
        | [] => [ps ++ List.range' i ts.length]
        | m :: ms => (ps ++ List.range' i (m - i)) :: segSpec (i + ts.length) (m :: ms) := by
  intro ts
  induction ts with
  | nil =>
    intro i ps
    simp [segAux, markerIndicesFrom]
  | cons t ts ih =>
    intro i ps
    cases hm : isMarkerPage t with
    | true =>
      simp only [segAux, hm, if_true, markerIndicesFrom]
      rw [ih (i + 1) [i]]
      cases hmf : markerIndicesFrom (i + 1) ts with
      | nil =>
        simp only [segSpec, List.length_cons]
        have : i + (ts.length + 1) - i = ts.length + 1 := by omega
        rw [this, List.range'_succ]
        simp
      | cons m ms =>
        have hb : i + 1 ≤ m := by
          have := markerIndicesFrom_bounds ts (i + 1) m (by rw [hmf]; exact List.mem_cons_self _ _)
          omega
        simp only [segSpec, List.length_cons]
        have h1 : i :: List.range' (i + 1) (m - (i + 1)) = List.range' i (m - i) :=
          range'_cons_of_lt i m (by omega)
        have h2 : i + 1 + ts.length = i + (ts.length + 1) := by omega
        simp only [← h1, h2]
        simp
    | false =>
      simp only [segAux, hm, if_false, markerIndicesFrom, Bool.false_eq_true]
      rw [ih (i + 1) (ps ++ [i])]
      cases hmf : markerIndicesFrom (i + 1) ts with
      | nil =>
        simp only [List.length_cons]
        have : ts.length + 1 = ts.length + 1 := rfl
        rw [List.range'_succ]
        simp
      | cons m ms =>
        have hb : i + 1 ≤ m := by
          have := markerIndicesFrom_bounds ts (i + 1) m (by rw [hmf]; exact List.mem_cons_self _ _)
          omega
        have h1 : i :: List.range' (i + 1) (m - (i + 1)) = List.range' i (m - i) :=
          range'_cons_of_lt i m (by omega)
        have h2 : i + 1 + ts.length = i + (ts.length + 1) := by omega
        simp only [List.length_cons, ← h1, h2]
        simp

theorem segNone_eq :
    ∀ (ts : List String) (i : Nat),
      segNone i ts = segSpec (i + ts.length) (markerIndicesFrom i ts) := by
  intro ts
  induction ts with
  | nil => intro i; simp [segNone, markerIndicesFrom, segSpec]
  | cons t ts ih =>
    intro i
    cases hm : isMarkerPage t with
    | true =>
      simp only [segNone, hm, if_true, markerIndicesFrom]
      rw [segAux_eq ts (i + 1) [i]]
      cases hmf : markerIndicesFrom (i + 1) ts with
      | nil =>
        simp only [segSpec, List.length_cons]
        have : i + (ts.length + 1) - i = ts.length + 1 := by omega
        rw [this, List.range'_succ]
        simp
      | cons m ms =>
        have hb : i + 1 ≤ m := by
          have := markerIndicesFrom_bounds ts (i + 1) m (by rw [hmf]; exact List.mem_cons_self _ _)
          omega
        simp only [segSpec, List.length_cons]
        have h1 : i :: List.range' (i + 1) (m - (i + 1)) = List.range' i (m - i) :=
          range'_cons_of_lt i m (by omega)
        have h2 : i + 1 + ts.length = i + (ts.length + 1) := by omega
        simp only [← h1, h2]
        simp
    | false =>
      simp only [segNone, hm, if_false, markerIndicesFrom, Bool.false_eq_true, List.length_cons]
      rw [ih (i + 1)]
      have h2 : i + 1 + ts.length = i + (ts.length + 1) := by omega
      rw [h2]

theorem segSpec_length (n : Nat) (ms : List Nat) : (segSpec n ms).length = ms.length := by
  induction ms with
  | nil => simp [segSpec]
  | cons m tail ih =>
    cases tail with
    | nil => simp [segSpec]
    | cons m2 ms2 => simpa [segSpec] using ih

theorem splitWrites_pages_eq (texts : List String) (f : Option String)
    (hf : filterUnset f = true) :
    (splitWrites texts f).map Invoice.pages = segSpec texts.length (markerIndices texts) := by
  have h := splitGo_closed f hf texts 0
  rw [splitWrites, h, segNone_eq]
  simp [markerIndices]

/-- Claim C1: with no GSTIN filter set, `split_invoices` produces exactly one
output per marker page, and the i-th output consists of exactly the i-th
marker page followed by the subsequent non-marker pages up to but excluding
the next marker page (or the end of the document), in original page order —
the outputs' page-index lists are precisely the marker-delimited segments
`segSpec texts.length (markerIndices texts)`. -/
theorem splitWrites_eq_segSpec (texts : List String) (f : Option String)
    (hf : filterUnset f = true) :
    (splitWrites texts f).length = (markerIndices texts).length ∧
    (splitWrites texts f).map Invoice.pages = segSpec texts.length (markerIndices texts) := by
  have h2 := splitWrites_pages_eq texts f hf
  refine ⟨?_, h2⟩
  have h3 := congrArg List.length h2
  simpa [segSpec_length] using h3

theorem splitWrites_eq_segSpec_witness :
    ((splitWrites exTexts none).length = (markerIndices exTexts).length ∧
      (splitWrites exTexts none).map Invoice.pages
        = segSpec exTexts.length (markerIndices exTexts)) ∧
    (splitWrites exTexts none).map Invoice.pages = [[1, 2], [3]] :=
  ⟨splitWrites_eq_segSpec exTexts none rfl, by decide⟩

theorem markerIndicesFrom_pairwise :
    ∀ (ts : List String) (i : Nat), List.Pairwise (· < ·) (markerIndicesFrom i ts) := by
  intro ts
  induction ts with
  | nil => intro i; simp [markerIndicesFrom]
  | cons t ts ih =>
    intro i
    cases hm : isMarkerPage t with
    | true =>
      simp only [markerIndicesFrom, hm, if_true]
      refine List.Pairwise.cons ?_ (ih (i + 1))
      intro m hmem
      have := markerIndicesFrom_bounds ts (i + 1) m hmem
      omega
    | false =>
      simp only [markerIndicesFrom, hm, Bool.false_eq_true, if_false]
      exact ih (i + 1)

theorem segSpec_flatten :
    ∀ (ms : List Nat) (m n : Nat), List.Pairwise (· < ·) (m :: ms) →
      (∀ x ∈ m :: ms, x ≤ n) →
      (segSpec n (m :: ms)).flatten = List.range' m (n - m) := by
  intro ms
  induction ms with
  | nil => intro m n _ _; simp [segSpec]
  | cons m2 ms2 ih =>
    intro m n hp hb
    have hlt : m < m2 := (List.pairwise_cons.mp hp).1 m2 (List.mem_cons_self _ _)
    have hm2n : m2 ≤ n := hb m2 (List.mem_cons_of_mem _ (List.mem_cons_self _ _))
    have hb2 : ∀ x ∈ m2 :: ms2, x ≤ n := fun x hx => hb x (List.mem_cons_of_mem _ hx)
    have hp2 : List.Pairwise (fun a b => a < b) (m2 :: ms2) := (List.pairwise_cons.mp hp).2
    have hih := ih m2 n hp2 hb2
    simp only [segSpec, List.flatten_cons, hih]
    have h1 : m + 1 * (m2 - m) = m2 := by omega
    have h2 := List.range'_append m (m2 - m) (n - m2) 1
    rw [h1] at h2
    rw [h2]
    congr 1
    omega

/-- Claim C2: with no GSTIN filter set, concatenating the pages of all
output files in the order the invoices were opened (which is the writing
order) reproduces the original document from the first marker page to the
end — the concatenated page indices are exactly
`firstMarker, firstMarker + 1, …, texts.length - 1` — and no page before
the first marker page appears in any output.  When there is no marker page
the concatenation is empty (`headD` falls back to `texts.length`). -/
theorem splitWrites_roundTrip (texts : List String) (f : Option String)
    (hf : filterUnset f = true) :
    ((splitWrites texts f).map Invoice.pages).flatten
        = List.range' ((markerIndices texts).headD texts.length)
            (texts.length - (markerIndices texts).headD texts.length) ∧
    ∀ w ∈ splitWrites texts f, ∀ p ∈ w.pages,
      (markerIndices texts).headD texts.length ≤ p := by
  have hmap := splitWrites_pages_eq texts f hf
  have h1 : ((splitWrites texts f).map Invoice.pages).flatten
      = List.range' ((markerIndices texts).headD texts.length)
          (texts.length - (markerIndices texts).headD texts.length) := by
    rw [hmap]
    cases hms : markerIndices texts with
    | nil => simp [segSpec]
    | cons m ms =>
      have hp : List.Pairwise (fun a b => a < b) (m :: ms) := by
        rw [← hms]; exact markerIndicesFrom_pairwise texts 0
      have hb : ∀ x ∈ m :: ms, x ≤ texts.length := by
        intro x hx
        have hx2 : x ∈ markerIndicesFrom 0 texts := by
          rw [markerIndices] at hms; rw [hms]; exact hx
        have := markerIndicesFrom_bounds texts 0 x hx2
        omega
      rw [segSpec_flatten ms m texts.length hp hb]
      simp
  refine ⟨h1, ?_⟩
  intro w hw p hp
  have hmem : p ∈ ((splitWrites texts f).map Invoice.pages).flatten := by
    rw [List.mem_flatten]
    exact ⟨w.pages, List.mem_map_of_mem _ hw, hp⟩
  rw [h1] at hmem
  exact (List.mem_range'_1.mp hmem).1

theorem splitWrites_roundTrip_witness :
    (((splitWrites exTexts none).map Invoice.pages).flatten
        = List.range' ((markerIndices exTexts).headD exTexts.length)
            (exTexts.length - (markerIndices exTexts).headD exTexts.length) ∧
      ∀ w ∈ splitWrites exTexts none, ∀ p ∈ w.pages,
        (markerIndices exTexts).headD exTexts.length ≤ p) ∧
    ((splitWrites exTexts none).map Invoice.pages).flatten = [1, 2, 3] :=
  ⟨splitWrites_roundTrip exTexts none rfl, by decide⟩

/-- Claim C4: a finalized invoice is written (emitted) iff no filter is set
(Python `None` or the falsy empty string) or the filter equals the captured
GSTIN after `str.upper` on both sides (case-insensitive comparison); when it
is not written it is discarded entirely. -/
theorem finalize_write_iff (f : Option String) (inv : Invoice) :
    (finalizeInto f (some inv) = [inv] ∨ finalizeInto f (some inv) = []) ∧
    (finalizeInto f (some inv) = [inv] ↔
      (f = none ∨ f = some "" ∨ ∃ s, f = some s ∧ pyUpper s = pyUpper inv.gstin)) := by
  cases f with
  | none =>
    refine ⟨Or.inl (by simp [finalizeInto, passesFilter]), ?_, ?_⟩
    · intro _; exact Or.inl rfl
    · intro _; simp [finalizeInto, passesFilter]
  | some s =>
    by_cases hs : s = ""
    · subst hs
      have hemp : ("" : String).isEmpty = true := rfl
      refine ⟨Or.inl (by simp [finalizeInto, passesFilter, hemp]), ?_, ?_⟩
      · intro _; exact Or.inr (Or.inl rfl)
      · intro _; simp [finalizeInto, passesFilter, hemp]
    · have hie : s.isEmpty = false := by
        cases hie : s.isEmpty
        · rfl
        · exact absurd ((String.isEmpty_iff s).mp hie) hs
      by_cases he : pyUpper s = pyUpper inv.gstin
      · have hpass : passesFilter (some s) inv.gstin = true := by
          simp [passesFilter, he]
        refine ⟨Or.inl (by simp [finalizeInto, hpass]), ?_, ?_⟩
        · intro _; exact Or.inr (Or.inr ⟨s, rfl, he⟩)
        · intro _; simp [finalizeInto, hpass]
      · have hbe : (pyUpper s == pyUpper inv.gstin) = false := by
          simp [he]
        have hpass : passesFilter (some s) inv.gstin = false := by
          simp [passesFilter, hie, hbe]
        refine ⟨Or.inr (by simp [finalizeInto, hpass]), ?_, ?_⟩
        · intro hw
          simp [finalizeInto, hpass] at hw
        · intro h
          rcases h with h | h | ⟨s2, hs2, he2⟩
          · exact absurd h (by simp)
          · exact absurd (Option.some.inj h) hs
          · rw [Option.some.inj hs2] at he
            exact absurd he2 he

theorem finalize_write_iff_witness :
    (finalizeInto (some "abc123") (some ⟨"D9", "ABC123", [4, 5]⟩)
        = [⟨"D9", "ABC123", [4, 5]⟩] ∨
      finalizeInto (some "abc123") (some ⟨"D9", "ABC123", [4, 5]⟩) = []) ∧
    (finalizeInto (some "abc123") (some ⟨"D9", "ABC123", [4, 5]⟩)
        = [⟨"D9", "ABC123", [4, 5]⟩] ↔
      (some "abc123" = none ∨ some "abc123" = some "" ∨
        ∃ s, some "abc123" = some s ∧ pyUpper s = pyUpper "ABC123")) :=
  finalize_write_iff (some "abc123") ⟨"D9", "ABC123", [4, 5]⟩

theorem splitGo_filtered_empty (s : String) (hs : s ≠ "") :
    ∀ (ts : List String) (i : Nat) (cur : Option Invoice),
      (∀ t ∈ ts, ∀ d g, pageMatch t = some (d, g) → pyUpper s ≠ pyUpper g) →
      (∀ inv, cur = some inv → pyUpper s ≠ pyUpper inv.gstin) →
      splitGo (some s) i ts cur = [] := by
  have hfin : ∀ cur : Option Invoice,
      (∀ inv, cur = some inv → pyUpper s ≠ pyUpper inv.gstin) →
      finalizeInto (some s) cur = [] := by
    intro cur hcur
    cases cur with
    | none => rfl
    | some inv =>
      have hne := hcur inv rfl
      have hie : s.isEmpty = false := by
        cases hie : s.isEmpty
        · rfl
        · exact absurd ((String.isEmpty_iff s).mp hie) hs
      have hbe : (pyUpper s == pyUpper inv.gstin) = false := by
        simp [hne]
      simp [finalizeInto, passesFilter, hie, hbe]
  intro ts
  induction ts with
  | nil =>
    intro i cur _ hcur
    simpa [splitGo] using hfin cur hcur
  | cons t ts ih =>
    intro i cur hts hcur
    cases h : pageMatch t with
    | some p =>
      obtain ⟨d, g⟩ := p
      have hg : pyUpper s ≠ pyUpper g := hts t (List.mem_cons_self _ _) d g h
      have hrec := ih (i + 1) (some ⟨d, g, [i]⟩)
        (fun u hu => hts u (List.mem_cons_of_mem _ hu))
        (by intro inv hi; cases hi; exact hg)
      simp [splitGo, h, hfin cur hcur, hrec]
    | none =>
      have hrec := ih (i + 1) (appendPage i cur)
        (fun u hu => hts u (List.mem_cons_of_mem _ hu))
        (by
          intro inv hi
          cases cur with
          | none => simp [appendPage] at hi
          | some inv0 =>
            simp [appendPage] at hi
            have := hcur inv0 rfl
            rw [← hi]
            simpa using this)
      simp [splitGo, h, hrec]

/-- Claim C5: a set (non-empty) GSTIN filter that matches none of the GSTINs
captured by the document's marker pages (up to `str.upper`) yields an empty
result list and zero written files, whatever the unfiltered run would have
produced. -/
theorem split_filter_no_match_empty (texts : List String) (s : String)
    (hs : s ≠ "")
    (h : ∀ g ∈ capturedGstins texts, pyUpper s ≠ pyUpper g) :
    splitWrites texts (some s) = [] ∧
    ∀ sanitize : String → String, split_invoices sanitize texts (some s) = [] := by
  have hw : splitWrites texts (some s) = [] := by
    apply splitGo_filtered_empty s hs texts 0 none
    · intro t ht d g hm
      apply h
      simp only [capturedGstins, List.mem_filterMap]
      exact ⟨t, ht, by simp [hm]⟩
    · intro inv hinv; cases hinv
  exact ⟨hw, fun sanitize => by simp [split_invoices, hw]⟩

theorem split_filter_no_match_empty_witness :
    (splitWrites exTexts (some "ZZZ") = [] ∧
      ∀ sanitize : String → String, split_invoices sanitize exTexts (some "ZZZ") = []) ∧
    (splitWrites exTexts none).length = 2 :=
  ⟨split_filter_no_match_empty exTexts "ZZZ" (by decide) (by decide), by decide⟩

theorem splitGo_no_marker (f : Option String) :
    ∀ (ts : List String) (i : Nat), (∀ t ∈ ts, isMarkerPage t = false) →
      splitGo f i ts none = [] := by
  intro ts
  induction ts with
  | nil => intro i _; rfl
  | cons t ts ih =>
    intro i h
    have hm : pageMatch t = none := by
      cases hp : pageMatch t with
      | none => rfl
      | some p =>
        have h5 := h t (List.mem_cons_self _ _)
        rw [isMarkerPage, hp] at h5
        simp at h5
    simp [splitGo, hm, appendPage, ih (i + 1) (fun u hu => h u (List.mem_cons_of_mem _ hu))]

/-- Claim C6: a document none of whose pages matches both patterns produces
an empty result list and zero written files, for every filter. -/
theorem split_no_marker_empty (texts : List String) (f : Option String)
    (h : ∀ t ∈ texts, isMarkerPage t = false) :
    splitWrites texts f = [] ∧
    ∀ sanitize : String → String, split_invoices sanitize texts f = [] := by
  have hw : splitWrites texts f = [] := splitGo_no_marker f texts 0 h
  exact ⟨hw, fun sanitize => by simp [split_invoices, hw]⟩

theorem split_no_marker_empty_witness :
    splitWrites ["cover", "body"] (some "G1") = [] ∧
    ∀ sanitize : String → String, split_invoices sanitize ["cover", "body"] (some "G1") = [] :=
  split_no_marker_empty ["cover", "body"] (some "G1") (by decide)

/-- Claim C9: a page whose text matches exactly one of the two patterns is
treated exactly like a page matching neither: it never opens a new invoice,
it is appended to the open invoice when there is one, and it is dropped
otherwise. -/
theorem single_pattern_page_ignored (t u : String)
    (ht : (docSearch t.data).isSome ≠ (gstSearch t.data).isSome)
    (hu : docSearch u.data = none ∧ gstSearch u.data = none) :
    ∀ (f : Option String) (i : Nat) (ts : List String) (cur : Option Invoice),
      splitGo f i (t :: ts) cur = splitGo f i (u :: ts) cur ∧
      (cur = none → splitGo f i (t :: ts) cur = splitGo f (i + 1) ts none) ∧
      (∀ inv, cur = some inv →
        splitGo f i (t :: ts) cur
          = splitGo f (i + 1) ts (some { inv with pages := inv.pages ++ [i] })) := by
  have hmt : pageMatch t = none := by
    unfold pageMatch
    cases hd : docSearch t.data with
    | none => rfl
    | some d =>
      cases hg : gstSearch t.data with
      | none => rfl
      | some g => rw [hd, hg] at ht; simp at ht
  have hmu : pageMatch u = none := by
    unfold pageMatch
    rw [hu.1]
  intro f i ts cur
  refine ⟨by simp [splitGo, hmt, hmu], ?_, ?_⟩
  · intro hc; subst hc; simp [splitGo, hmt, appendPage]
  · intro inv hc; subst hc; simp [splitGo, hmt, appendPage]

theorem single_pattern_page_ignored_witness :
    (splitGo none 5 ["Document No. : D1", "body"] (some ⟨"D0", "G0", [4]⟩)
        = splitGo none 5 ["cover", "body"] (some ⟨"D0", "G0", [4]⟩) ∧
      (some ⟨"D0", "G0", [4]⟩ = (none : Option Invoice) →
        splitGo none 5 ["Document No. : D1", "body"] (some ⟨"D0", "G0", [4]⟩)
          = splitGo none (5 + 1) ["body"] none) ∧
      (∀ inv, (some ⟨"D0", "G0", [4]⟩ : Option Invoice) = some inv →
        splitGo none 5 ["Document No. : D1", "body"] (some ⟨"D0", "G0", [4]⟩)
          = splitGo none (5 + 1) ["body"] (some { inv with pages := inv.pages ++ [5] }))) ∧
    splitGo none 5 ["Document No. : D1", "body"] (some ⟨"D0", "G0", [4]⟩)
      = [⟨"D0", "G0", [4, 5, 6]⟩] :=
  ⟨single_pattern_page_ignored "Document No. : D1" "cover" (by decide) (by decide)
      none 5 ["body"] (some ⟨"D0", "G0", [4]⟩),
    by decide⟩

theorem afterLastDot_none_not_mem :
    ∀ s : List Char, afterLastDot s = none → '.' ∉ s := by
  intro s
  induction s with
  | nil => intro _ h; simp at h
  | cons c cs ih =>
    intro h
    cases h2 : afterLastDot cs with
    | some r =>
      simp only [afterLastDot, h2] at h
      simp at h
    | none =>
      simp only [afterLastDot, h2] at h
      by_cases hc : c = '.'
      · simp [hc] at h
      · intro hmem
        rcases List.mem_cons.mp hmem with h3 | h3
        · exact hc h3.symm
        · exact ih h2 h3

theorem afterLastDot_spec :
    ∀ (s ext : List Char), afterLastDot s = some ext →
      ∃ pre, s = pre ++ '.' :: ext ∧ '.' ∉ ext := by
  intro s
  induction s with
  | nil => intro ext h; simp [afterLastDot] at h
  | cons c cs ih =>
    intro ext h
    cases h2 : afterLastDot cs with
    | some r =>
      simp only [afterLastDot, h2, Option.some.injEq] at h
      obtain ⟨pre, hpre, hnm⟩ := ih r h2
      subst h
      exact ⟨c :: pre, by rw [hpre]; rfl, hnm⟩
    | none =>
      simp only [afterLastDot, h2] at h
      by_cases hc : c = '.'
      · have hcs : cs = ext := by simpa [hc] using h
        subst hcs
        exact ⟨[], by simp [hc], afterLastDot_none_not_mem cs h2⟩
      · simp [hc] at h

/-- Claim C8: an upload with no file part, an empty filename, or a filename
whose extension is (case-insensitively) neither `pdf` nor `zip` is answered
synchronously with an HTTP 400 client error carrying a non-empty descriptive
message, and nothing is processed. -/
theorem upload_rejects_invalid (fp : Bool) (name : String)
    (h : fp = false ∨ name = "" ∨ NoGoodExt name.data) :
    (∃ msg, msg ≠ "" ∧ upload_pdf fp name = UploadOutcome.clientError 400 msg) ∧
    upload_pdf fp name ≠ UploadOutcome.accepted := by
  cases fp with
  | false =>
    exact ⟨⟨"No file part", by decide, by simp [upload_pdf]⟩, by simp [upload_pdf]⟩
  | true =>
    by_cases hn : name = ""
    · subst hn
      exact ⟨⟨"No selected file", by decide, by simp [upload_pdf]⟩, by simp [upload_pdf]⟩
    · have hng : NoGoodExt name.data := by
        rcases h with h | h | h
        · simp at h
        · exact absurd h hn
        · exact h
      have hall : allowed_file name = false := by
        rw [allowed_file]
        cases hext : afterLastDot name.data with
        | none => rfl
        | some ext =>
          obtain ⟨pre, hpre, hnm⟩ := afterLastDot_spec name.data ext hext
          have hno := hng pre ext hpre hnm
          rw [not_or] at hno
          simp [hno.1, hno.2]
      exact ⟨⟨"Invalid file type. Only PDF and ZIP files are allowed.", by decide,
          by simp [upload_pdf, hn, hall]⟩,
        by simp [upload_pdf, hn, hall]⟩

theorem upload_rejects_invalid_witness :
    (∃ msg, msg ≠ "" ∧ upload_pdf true "" = UploadOutcome.clientError 400 msg) ∧
    upload_pdf true "" ≠ UploadOutcome.accepted :=
  upload_rejects_invalid true "" (Or.inr (Or.inl rfl))

theorem foldl_diskWrite_no_match (sanitize : String → String) :
    ∀ (l : List Invoice) (d : String → Option (List Nat)) (p : String),
      (∀ w ∈ l, sanitize (rawName w) ≠ p) →
      l.foldl (diskWrite sanitize) d p = d p := by
  intro l
  induction l with
  | nil => intro d p _; rfl
  | cons w l ih =>
    intro d p h
    have hw : sanitize (rawName w) ≠ p := h w (List.mem_cons_self _ _)
    have hrec := ih (diskWrite sanitize d w) p (fun u hu => h u (List.mem_cons_of_mem _ hu))
    rw [List.foldl_cons, hrec, diskWrite]
    exact if_neg fun he => hw he.symm

theorem count_ge_two_of_get_eq {α : Type} [DecidableEq α] (l : List α) (i j : Nat)
    (hij : i < j) (hj : j < l.length)
    (he : l.get ⟨i, Nat.lt_trans hij hj⟩ = l.get ⟨j, hj⟩) :
    2 ≤ l.count (l.get ⟨j, hj⟩) := by
  have hi : i < l.length := Nat.lt_trans hij hj
  simp only [List.get_eq_getElem] at he ⊢
  obtain ⟨a, ha⟩ : ∃ a, l[j] = a := ⟨_, rfl⟩
  rw [ha] at he ⊢
  have hsplit : l.take (i + 1) ++ l.drop (i + 1) = l := List.take_append_drop _ _
  have hcnt : l.count a = (l.take (i + 1)).count a + (l.drop (i + 1)).count a := by
    conv_lhs => rw [← hsplit]
    exact List.count_append _ _ _
  have h1 : 0 < (l.take (i + 1)).count a := by
    apply List.count_pos_iff.mpr
    rw [← List.take_concat_get' l i hi]
    exact List.mem_append_right _ (by simp [he])
  have h2 : 0 < (l.drop (i + 1)).count a := by
    apply List.count_pos_iff.mpr
    have hb : j - (i + 1) < (l.drop (i + 1)).length := by
      rw [List.length_drop]; omega
    have hg : (l.drop (i + 1))[j - (i + 1)] = a := by
      rw [List.getElem_drop]
      rw [← ha]
      congr 1
      omega
    rw [← hg]
    exact List.getElem_mem _
  omega

theorem diskAfter_last_write (sanitize : String → String) (l : List Invoice)
    (j : Nat) (hj : j < l.length)
    (hlast : ∀ (k : Nat) (hk : k < l.length), j < k →
      sanitize (rawName (l.get ⟨k, hk⟩)) ≠ sanitize (rawName (l.get ⟨j, hj⟩))) :
    diskAfter sanitize l (sanitize (rawName (l.get ⟨j, hj⟩)))
      = some (l.get ⟨j, hj⟩).pages := by
  simp only [List.get_eq_getElem] at hlast ⊢
  obtain ⟨w0, hw0⟩ : ∃ w0, l[j] = w0 := ⟨_, rfl⟩
  rw [hw0] at hlast ⊢
  have hno : ∀ w ∈ l.drop (j + 1), sanitize (rawName w) ≠ sanitize (rawName w0) := by
    intro w hw
    obtain ⟨k, hk, hkw⟩ := List.mem_iff_getElem.mp hw
    have hkb : j + 1 + k < l.length := by
      have hk2 := hk
      rw [List.length_drop] at hk2
      omega
    have hge : (l.drop (j + 1))[k] = l[j + 1 + k] := List.getElem_drop _
    rw [← hkw, hge]
    exact hlast (j + 1 + k) hkb (by omega)
  rw [diskAfter]
  conv_lhs => rw [← List.take_append_drop (j + 1) l]
  rw [List.foldl_append]
  rw [foldl_diskWrite_no_match sanitize (l.drop (j + 1)) _ _ hno]
  rw [← List.take_concat_get' l j hj, List.foldl_append]
  simp only [List.foldl_cons, List.foldl_nil, hw0]
  rw [diskWrite]
  simp

/-- Claim C10: two written invoices of the same run with the same captured
document id and GSTIN produce the same sanitized filename twice in the
returned list, and since the second write targets the same output path, the
directory afterwards holds exactly the later invoice's pages under that
name (provided no still-later write reuses the name). -/
theorem duplicate_invoice_overwrites (sanitize : String → String)
    (texts : List String) (f : Option String) (i j : Nat)
    (hij : i < j) (hj : j < (splitWrites texts f).length)
    (hid : ((splitWrites texts f).get ⟨i, Nat.lt_trans hij hj⟩).docId
        = ((splitWrites texts f).get ⟨j, hj⟩).docId)
    (hg : ((splitWrites texts f).get ⟨i, Nat.lt_trans hij hj⟩).gstin
        = ((splitWrites texts f).get ⟨j, hj⟩).gstin)
    (hlast : ∀ (k : Nat) (hk : k < (splitWrites texts f).length), j < k →
      sanitize (rawName ((splitWrites texts f).get ⟨k, hk⟩))
        ≠ sanitize (rawName ((splitWrites texts f).get ⟨j, hj⟩))) :
    2 ≤ (split_invoices sanitize texts f).count
        (sanitize (rawName ((splitWrites texts f).get ⟨j, hj⟩))) ∧
    diskAfter sanitize (splitWrites texts f)
        (sanitize (rawName ((splitWrites texts f).get ⟨j, hj⟩)))
      = some ((splitWrites texts f).get ⟨j, hj⟩).pages := by
  have hi : i < (splitWrites texts f).length := Nat.lt_trans hij hj
  have hrn : rawName ((splitWrites texts f).get ⟨i, hi⟩)
      = rawName ((splitWrites texts f).get ⟨j, hj⟩) := by
    rw [rawName, rawName, hid, hg]
  constructor
  · have hmap : split_invoices sanitize texts f
        = (splitWrites texts f).map (fun w => sanitize (rawName w)) := rfl
    have hjl : j < ((splitWrites texts f).map (fun w => sanitize (rawName w))).length := by
      rw [List.length_map]; exact hj
    have hgj : ((splitWrites texts f).map (fun w => sanitize (rawName w))).get ⟨j, hjl⟩
        = sanitize (rawName ((splitWrites texts f).get ⟨j, hj⟩)) := by
      simp [List.get_eq_getElem]
    have hrn2 := hrn
    simp only [List.get_eq_getElem] at hrn2
    have he : ((splitWrites texts f).map (fun w => sanitize (rawName w))).get
          ⟨i, Nat.lt_trans hij hjl⟩
        = ((splitWrites texts f).map (fun w => sanitize (rawName w))).get ⟨j, hjl⟩ := by
      simp only [List.get_eq_getElem, List.getElem_map]
      rw [hrn2]
    have := count_ge_two_of_get_eq _ i j hij hjl he
    rw [hgj] at this
    rw [hmap]
    exact this
  · exact diskAfter_last_write sanitize (splitWrites texts f) j hj hlast

theorem duplicate_invoice_overwrites_witness :
    2 ≤ (split_invoices id dupTexts none).count
        (id (rawName ((splitWrites dupTexts none).get ⟨1, by decide⟩))) ∧
    diskAfter id (splitWrites dupTexts none)
        (id (rawName ((splitWrites dupTexts none).get ⟨1, by decide⟩)))
      = some ((splitWrites dupTexts none).get ⟨1, by decide⟩).pages := by
  have hlen : (splitWrites dupTexts none).length = 2 := by decide
  refine duplicate_invoice_overwrites id dupTexts none 0 1 (by decide) (by decide)
    (by decide) (by decide) ?_
  intro k hk hgt
  exfalso
  rw [hlen] at hk
  omega

theorem dropLit_eq_some : ∀ (l s r : List Char), dropLit l s = some r ↔ s = l ++ r := by
  intro l
  induction l with
  | nil => intro s r; simp [dropLit]
  | cons a l ih =>
    intro s r
    cases s with
    | nil => simp [dropLit]
    | cons c cs =>
      by_cases hc : c = a
      · simp [dropLit, hc, ih cs r]
      · simp [dropLit, hc]

theorem takeNonWs_decomp :
    ∀ s : List Char, s = (takeNonWs s).1 ++ (takeNonWs s).2 ∧
      (∀ x ∈ (takeNonWs s).1, pyIsSpace x = false) ∧ MaxRest (takeNonWs s).2 := by
  intro s
  induction s with
  | nil => exact ⟨rfl, by simp [takeNonWs], Or.inl rfl⟩
  | cons c cs ih =>
    cases hsp : pyIsSpace c with
    | true =>
      refine ⟨by simp [takeNonWs, hsp], by simp [takeNonWs, hsp], ?_⟩
      simp only [takeNonWs, hsp, if_true]
      exact Or.inr ⟨c, cs, rfl, hsp⟩
    | false =>
      obtain ⟨h1, h2, h3⟩ := ih
      refine ⟨?_, ?_, ?_⟩
      · simp only [takeNonWs, hsp, Bool.false_eq_true, if_false, List.cons_append]
        rw [← h1]
      · intro x hx
        simp only [takeNonWs, hsp, Bool.false_eq_true, if_false] at hx
        rcases List.mem_cons.mp hx with h4 | h4
        · subst h4; exact hsp
        · exact h2 x h4
      · simp only [takeNonWs, hsp, Bool.false_eq_true, if_false]
        exact h3

theorem takeNonWs_exact :
    ∀ (tok rest : List Char), (∀ x ∈ tok, pyIsSpace x = false) → MaxRest rest →
      takeNonWs (tok ++ rest) = (tok, rest) := by
  intro tok
  induction tok with
  | nil =>
    intro rest _ hmax
    rcases hmax with h | ⟨r, rs, hr, hws⟩
    · subst h; rfl
    · subst hr; simp [takeNonWs, hws]
  | cons x xs ih =>
    intro rest hnw hmax
    have hx : pyIsSpace x = false := hnw x (List.mem_cons_self _ _)
    have hrec := ih rest (fun y hy => hnw y (List.mem_cons_of_mem _ hy)) hmax
    simp [takeNonWs, hx, hrec]

theorem tokenOf_some_iff (s tok : List Char) :
    tokenOf s = some tok ↔
      ∃ rest, s = tok ++ rest ∧ tok ≠ [] ∧
        (∀ x ∈ tok, pyIsSpace x = false) ∧ MaxRest rest := by
  constructor
  · intro h
    rw [tokenOf] at h
    cases hp : (takeNonWs s).1 with
    | nil => rw [hp] at h; simp at h
    | cons a l =>
      rw [hp] at h
      simp only [List.isEmpty_cons, Bool.false_eq_true, if_false, Option.some.injEq] at h
      obtain ⟨h1, h2, h3⟩ := takeNonWs_decomp s
      rw [hp] at h1 h2
      subst h
      exact ⟨(takeNonWs s).2, h1, by simp, h2, h3⟩
  · intro ⟨rest, hs, hne, hnw, hmax⟩
    subst hs
    rw [tokenOf, takeNonWs_exact tok rest hnw hmax]
    cases tok with
    | nil => exact absurd rfl hne
    | cons a l => simp

theorem anyNotNl_some_iff (s r : List Char) :
    anyNotNl s = some r ↔ ∃ c, s = c :: r ∧ c ≠ '\n' := by
  cases s with
  | nil => simp [anyNotNl]
  | cons c cs =>
    by_cases hc : c = '\n'
    · subst hc
      simp only [anyNotNl, if_pos rfl]
      constructor
      · intro h; exact absurd h (by simp)
      · rintro ⟨c2, h1, h2⟩
        obtain ⟨hc2, hcs⟩ := List.cons.inj h1
        exact absurd hc2.symm h2
    · simp only [anyNotNl, if_neg hc]
      constructor
      · intro h
        have hr := Option.some.inj h
        exact ⟨c, by rw [hr], hc⟩
      · rintro ⟨c2, h1, h2⟩
        obtain ⟨hc2, hcs⟩ := List.cons.inj h1
        rw [hcs]

theorem dropWhile_ws_append (c : Char) (hc : pyIsSpace c = false) (rest : List Char) :
    ∀ w : List Char, (∀ x ∈ w, pyIsSpace x = true) →
      List.dropWhile pyIsSpace (w ++ c :: rest) = c :: rest := by
  intro w
  induction w with
  | nil => intro _; simp [List.dropWhile_cons, hc]
  | cons a w2 ih =>
    intro h
    have ha : pyIsSpace a = true := h a (List.mem_cons_self _ _)
    simp only [List.cons_append, List.dropWhile_cons, ha, if_true]
    exact ih fun y hy => h y (List.mem_cons_of_mem _ hy)

theorem dropWs1_ws_append (w : List Char) (hw : WsRun w)
    (c : Char) (hc : pyIsSpace c = false) (rest : List Char) :
    dropWs1 (w ++ c :: rest) = some (c :: rest) := by
  obtain ⟨hne, hws⟩ := hw
  cases w with
  | nil => exact absurd rfl hne
  | cons a w2 =>
    have ha : pyIsSpace a = true := hws a (List.mem_cons_self _ _)
    simp only [List.cons_append, dropWs1, ha, if_true, Option.some.injEq]
    exact dropWhile_ws_append c hc rest w2 fun y hy => hws y (List.mem_cons_of_mem _ hy)

theorem dropWs1_some_decomp (s r : List Char) (h : dropWs1 s = some r) :
    ∃ w, s = w ++ r ∧ WsRun w := by
  cases s with
  | nil => simp [dropWs1] at h
  | cons c cs =>
    cases hsp : pyIsSpace c with
    | false => simp [dropWs1, hsp] at h
    | true =>
      simp only [dropWs1, hsp, if_true, Option.some.injEq] at h
      subst h
      refine ⟨c :: cs.takeWhile pyIsSpace, ?_, by simp, ?_⟩
      · rw [List.cons_append]
        congr 1
        exact (List.takeWhile_append_dropWhile _ _).symm
      · intro x hx
        rcases List.mem_cons.mp hx with h1 | h1
        · subst h1; exact hsp
        · exact List.mem_takeWhile_imp h1

theorem dropWs1_ws_append_eq (w : List Char) (hw : WsRun w) (l : List Char)
    (c : Char) (rest : List Char) (hl : l = c :: rest) (hc : pyIsSpace c = false) :
    dropWs1 (w ++ l) = some l := by
  subst hl
  exact dropWs1_ws_append w hw c hc rest

theorem docMatchAt_some_iff (s tok : List Char) :
    docMatchAt s = some tok ↔ DocCapAt s tok := by
  constructor
  · intro h
    cases h1 : dropLit "Document No".data s with
    | none =>
      simp only [docMatchAt, h1, Option.none_bind] at h
      exact Option.noConfusion h
    | some r1 =>
      simp only [docMatchAt, h1, Option.some_bind] at h
      cases h2 : anyNotNl r1 with
      | none => rw [h2] at h; simp at h
      | some r2 =>
        rw [h2] at h
        simp only [Option.some_bind] at h
        cases h3 : dropLit " : ".data r2 with
        | none => rw [h3] at h; simp at h
        | some r3 =>
          rw [h3] at h
          simp only [Option.some_bind] at h
          obtain ⟨rest, hr3, hne, hnw, hmax⟩ := (tokenOf_some_iff r3 tok).mp h
          obtain ⟨c, hr1, hc⟩ := (anyNotNl_some_iff r1 r2).mp h2
          have hs := (dropLit_eq_some _ s r1).mp h1
          have hr2 := (dropLit_eq_some _ r2 r3).mp h3
          refine ⟨c, rest, ?_, hc, hne, hnw, hmax⟩
          rw [hs, hr1, hr2, hr3]
  · rintro ⟨c, rest, hs, hc, hne, hnw, hmax⟩
    subst hs
    simp only [docMatchAt]
    rw [(dropLit_eq_some "Document No".data _ _).mpr rfl]
    simp only [Option.some_bind]
    rw [(anyNotNl_some_iff _ _).mpr ⟨c, rfl, hc⟩]
    simp only [Option.some_bind]
    rw [(dropLit_eq_some " : ".data _ _).mpr rfl]
    simp only [Option.some_bind]
    exact (tokenOf_some_iff _ _).mpr ⟨rest, rfl, hne, hnw, hmax⟩

theorem gstMatchAt_some_iff (s tok : List Char) :
    gstMatchAt s = some tok ↔ GstCapAt s tok := by
  constructor
  · intro h
    cases h1 : dropLit "Recipient".data s with
    | none =>
      simp only [gstMatchAt, h1, Option.none_bind] at h
      exact Option.noConfusion h
    | some r1 =>
      simp only [gstMatchAt, h1, Option.some_bind] at h
      cases h2 : dropWs1 r1 with
      | none => rw [h2] at h; simp at h
      | some r2 =>
        rw [h2] at h; simp only [Option.some_bind] at h
        cases h3 : dropLit ":".data r2 with
        | none => rw [h3] at h; simp at h
        | some r3 =>
          rw [h3] at h; simp only [Option.some_bind] at h
          cases h4 : dropWs1 r3 with
          | none => rw [h4] at h; simp at h
          | some r4 =>
            rw [h4] at h; simp only [Option.some_bind] at h
            cases h5 : dropLit "GSTIN".data r4 with
            | none => rw [h5] at h; simp at h
            | some r5 =>
              rw [h5] at h; simp only [Option.some_bind] at h
              cases h6 : dropWs1 r5 with
              | none => rw [h6] at h; simp at h
              | some r6 =>
                rw [h6] at h; simp only [Option.some_bind] at h
                cases h7 : dropLit ":".data r6 with
                | none => rw [h7] at h; simp at h
                | some r7 =>
                  rw [h7] at h; simp only [Option.some_bind] at h
                  cases h8 : dropWs1 r7 with
                  | none => rw [h8] at h; simp at h
                  | some r8 =>
                    rw [h8] at h; simp only [Option.some_bind] at h
                    obtain ⟨rest, hr8, hne, hnw, hmax⟩ := (tokenOf_some_iff r8 tok).mp h
                    have hs1 := (dropLit_eq_some _ s r1).mp h1
                    obtain ⟨w1, hs2, hw1⟩ := dropWs1_some_decomp r1 r2 h2
                    have hs3 := (dropLit_eq_some _ r2 r3).mp h3
                    obtain ⟨w2, hs4, hw2⟩ := dropWs1_some_decomp r3 r4 h4
                    have hs5 := (dropLit_eq_some _ r4 r5).mp h5
                    obtain ⟨w3, hs6, hw3⟩ := dropWs1_some_decomp r5 r6 h6
                    have hs7 := (dropLit_eq_some _ r6 r7).mp h7
                    obtain ⟨w4, hs8, hw4⟩ := dropWs1_some_decomp r7 r8 h8
                    refine ⟨w1, w2, w3, w4, rest, ?_, hw1, hw2, hw3, hw4, hne, hnw, hmax⟩
                    rw [hs1, hs2, hs3, hs4, hs5, hs6, hs7, hs8, hr8]
  · rintro ⟨w1, w2, w3, w4, rest, hs, hw1, hw2, hw3, hw4, hne, hnw, hmax⟩
    subst hs
    obtain ⟨x, xs, htok⟩ : ∃ x xs, tok = x :: xs := by
      cases tok with
      | nil => exact absurd rfl hne
      | cons x xs => exact ⟨x, xs, rfl⟩
    have hxnw : pyIsSpace x = false := hnw x (by rw [htok]; exact List.mem_cons_self _ _)
    simp only [gstMatchAt, Option.bind_eq_some]
    exact ⟨_, (dropLit_eq_some "Recipient".data _ _).mpr rfl,
      _, dropWs1_ws_append_eq w1 hw1
        (":".data ++ (w2 ++ ("GSTIN".data ++ (w3 ++ (":".data ++ (w4 ++ (tok ++ rest)))))))
        ':' (w2 ++ ("GSTIN".data ++ (w3 ++ (":".data ++ (w4 ++ (tok ++ rest)))))) rfl (by decide),
      _, (dropLit_eq_some ":".data _ _).mpr rfl,
      _, dropWs1_ws_append_eq w2 hw2
        ("GSTIN".data ++ (w3 ++ (":".data ++ (w4 ++ (tok ++ rest)))))
        'G' ("STIN".data ++ (w3 ++ (":".data ++ (w4 ++ (tok ++ rest))))) rfl (by decide),
      _, (dropLit_eq_some "GSTIN".data _ _).mpr rfl,
      _, dropWs1_ws_append_eq w3 hw3
        (":".data ++ (w4 ++ (tok ++ rest))) ':' (w4 ++ (tok ++ rest)) rfl (by decide),
      _, (dropLit_eq_some ":".data _ _).mpr rfl,
      _, dropWs1_ws_append_eq w4 hw4 (tok ++ rest) x (xs ++ rest) (by simp [htok]) hxnw,
      (tokenOf_some_iff _ _).mpr ⟨rest, rfl, hne, hnw, hmax⟩⟩

theorem reSearch_isSome_of (mAt : List Char → Option (List Char)) :
    ∀ (pre s : List Char), (mAt s).isSome = true →
      (reSearch mAt (pre ++ s)).isSome = true := by
  intro pre
  induction pre with
  | nil =>
    intro s h
    cases s with
    | nil => simpa [reSearch] using h
    | cons c cs =>
      simp only [List.nil_append]
      cases hm : mAt (c :: cs) with
      | some r => simp [reSearch, hm]
      | none => rw [hm] at h; simp at h
  | cons a pre ih =>
    intro s h
    simp only [List.cons_append]
    cases hm : mAt (a :: (pre ++ s)) with
    | some r => simp [reSearch, hm]
    | none =>
      simp only [reSearch, hm]
      exact ih s h

theorem reSearch_some_decomp (mAt : List Char → Option (List Char)) :
    ∀ (s tok : List Char), reSearch mAt s = some tok →
      ∃ pre suf, s = pre ++ suf ∧ mAt suf = some tok := by
  intro s
  induction s with
  | nil =>
    intro tok h
    exact ⟨[], [], rfl, by simpa [reSearch] using h⟩
  | cons c cs ih =>
    intro tok h
    cases hm : mAt (c :: cs) with
    | some r =>
      simp only [reSearch, hm] at h
      exact ⟨[], c :: cs, rfl, by rw [hm, h]⟩
    | none =>
      simp only [reSearch, hm] at h
      obtain ⟨pre, suf, h1, h2⟩ := ih tok h
      exact ⟨c :: pre, suf, by rw [List.cons_append, h1], h2⟩

theorem docSearch_isSome_iff (s : List Char) :
    (docSearch s).isSome = true ↔
      ∃ pre suf tok, s = pre ++ suf ∧ DocCapAt suf tok := by
  constructor
  · intro h
    obtain ⟨tok, htok⟩ := Option.isSome_iff_exists.mp h
    obtain ⟨pre, suf, h1, h2⟩ := reSearch_some_decomp docMatchAt s tok htok
    exact ⟨pre, suf, tok, h1, (docMatchAt_some_iff suf tok).mp h2⟩
  · rintro ⟨pre, suf, tok, h1, h2⟩
    rw [h1]
    exact reSearch_isSome_of docMatchAt pre suf
      (by rw [(docMatchAt_some_iff suf tok).mpr h2]; rfl)

theorem gstSearch_isSome_iff (s : List Char) :
    (gstSearch s).isSome = true ↔
      ∃ pre suf tok, s = pre ++ suf ∧ GstCapAt suf tok := by
  constructor
  · intro h
    obtain ⟨tok, htok⟩ := Option.isSome_iff_exists.mp h
    obtain ⟨pre, suf, h1, h2⟩ := reSearch_some_decomp gstMatchAt s tok htok
    exact ⟨pre, suf, tok, h1, (gstMatchAt_some_iff suf tok).mp h2⟩
  · rintro ⟨pre, suf, tok, h1, h2⟩
    rw [h1]
    exact reSearch_isSome_of gstMatchAt pre suf
      (by rw [(gstMatchAt_some_iff suf tok).mpr h2]; rfl)

theorem pageMatch_isSome_iff (t : String) :
    (pageMatch t).isSome = true ↔
      (docSearch t.data).isSome = true ∧ (gstSearch t.data).isSome = true := by
  rw [pageMatch]
  cases hd : docSearch t.data <;> cases hg : gstSearch t.data <;> simp

theorem pageMatch_eq_some (t : String) (d g : String)
    (h : pageMatch t = some (d, g)) :
    docSearch t.data = some d.data ∧ gstSearch t.data = some g.data := by
  rw [pageMatch] at h
  cases hd : docSearch t.data with
  | none => rw [hd] at h; exact Option.noConfusion h
  | some d0 =>
    cases hg : gstSearch t.data with
    | none => rw [hd, hg] at h; exact Option.noConfusion h
    | some g0 =>
      rw [hd, hg] at h
      have h2 := Option.some.inj h
      have hd2 : d = String.mk d0 := (congrArg Prod.fst h2).symm
      have hg2 : g = String.mk g0 := (congrArg Prod.snd h2).symm
      constructor
      · rw [hd2]
      · rw [hg2]

/-- Claim C3 is false as stated: `pageCex` is a marker page (it opens a new
invoice), yet its text has no non-whitespace token following the fixed
literal label `Document No. : `, because `doc_pattern`'s `.` is the regex
any-character metacharacter, not a literal dot. -/
theorem marker_without_literal_labels :
    ¬(isMarkerPage pageCex = true ↔
      (hasLitToken "Document No. : ".data pageCex.data = true ∧
        hasLitToken "Recipient : GSTIN : ".data pageCex.data = true)) := by
  decide

/-- Claim C3 (amended): a page is a marker page iff its text contains an
occurrence of the document-id pattern — the literal `Document No`, one
arbitrary non-newline character, the literal ` : `, then a maximal
non-empty non-whitespace token — and an occurrence of the GSTIN pattern —
the literals `Recipient`, `:`, `GSTIN`, `:` separated by runs of one or
more whitespace characters, then a maximal non-empty non-whitespace token;
the captured document id and GSTIN are tokens of such occurrences. -/
theorem marker_iff_pattern_occurrences (t : String) :
    (isMarkerPage t = true ↔
      ((∃ pre suf tok, t.data = pre ++ suf ∧ DocCapAt suf tok) ∧
        (∃ pre suf tok, t.data = pre ++ suf ∧ GstCapAt suf tok))) ∧
    (∀ d g, pageMatch t = some (d, g) →
      (∃ pre suf, t.data = pre ++ suf ∧ DocCapAt suf d.data) ∧
      (∃ pre suf, t.data = pre ++ suf ∧ GstCapAt suf g.data)) := by
  constructor
  · rw [isMarkerPage, pageMatch_isSome_iff, docSearch_isSome_iff, gstSearch_isSome_iff]
  · intro d g h
    obtain ⟨hd, hg⟩ := pageMatch_eq_some t d g h
    constructor
    · obtain ⟨pre, suf, h1, h2⟩ := reSearch_some_decomp docMatchAt t.data d.data hd
      exact ⟨pre, suf, h1, (docMatchAt_some_iff suf d.data).mp h2⟩
    · obtain ⟨pre, suf, h1, h2⟩ := reSearch_some_decomp gstMatchAt t.data g.data hg
      exact ⟨pre, suf, h1, (gstMatchAt_some_iff suf g.data).mp h2⟩

theorem marker_iff_pattern_occurrences_witness :
    (isMarkerPage pageA = true ↔
      ((∃ pre suf tok, pageA.data = pre ++ suf ∧ DocCapAt suf tok) ∧
        (∃ pre suf tok, pageA.data = pre ++ suf ∧ GstCapAt suf tok))) ∧
    (∀ d g, pageMatch pageA = some (d, g) →
      (∃ pre suf, pageA.data = pre ++ suf ∧ DocCapAt suf d.data) ∧
      (∃ pre suf, pageA.data = pre ++ suf ∧ GstCapAt suf g.data)) :=
  marker_iff_pattern_occurrences pageA

theorem runBody_error (ε : Type) (ops : PdfOps ε) (f : Option String) :
    ∀ (k i : Nat) (cur : Option Invoice) (acc : List Invoice) (e : ε),
      (runBody ops f i k cur acc).1 = Except.error e →
      ∃ ev ∈ (runBody ops f i k cur acc).2, evFails ev e := by
  intro k
  induction k with
  | zero =>
    intro i cur acc e h
    cases cur with
    | none => simp [runBody] at h
    | some inv =>
      by_cases hp : passesFilter f inv.gstin
      · cases hs : ops.save (rawName inv) with
        | none => simp [runBody, hp, hs] at h
        | some e2 =>
          simp only [runBody, hp, if_true, hs] at h ⊢
          have he : e2 = e := by simpa using h
          exact ⟨Ev.saveEv (rawName inv) (some e2), by simp, by simp [evFails, he]⟩
      · simp [runBody, hp] at h
  | succ k ih =>
    intro i cur acc e h
    cases ht : ops.pageText i with
    | error e2 =>
      simp only [runBody, ht] at h ⊢
      have he : e2 = e := by simpa using h
      exact ⟨Ev.readEv i (Except.error e2), by simp, by simp [evFails, he]⟩
    | ok t =>
      cases hm : pageMatch t with
      | none =>
        simp only [runBody, ht, hm] at h ⊢
        obtain ⟨ev, hmem, hf⟩ := ih (i + 1) (appendPage i cur) acc e h
        exact ⟨ev, by simp [hmem], hf⟩
      | some p =>
        obtain ⟨d, g⟩ := p
        cases cur with
        | none =>
          simp only [runBody, ht, hm] at h ⊢
          obtain ⟨ev, hmem, hf⟩ := ih (i + 1) (some ⟨d, g, [i]⟩) acc e h
          exact ⟨ev, by simp [hmem], hf⟩
        | some inv =>
          by_cases hp : passesFilter f inv.gstin
          · cases hs : ops.save (rawName inv) with
            | some e2 =>
              simp only [runBody, ht, hm, hp, if_true, hs] at h ⊢
              have he : e2 = e := by simpa using h
              exact ⟨Ev.saveEv (rawName inv) (some e2), by simp, by simp [evFails, he]⟩
            | none =>
              simp only [runBody, ht, hm, hp, if_true, hs] at h ⊢
              obtain ⟨ev, hmem, hf⟩ := ih (i + 1) (some ⟨d, g, [i]⟩) (acc ++ [inv]) e h
              exact ⟨ev, by simp [hmem], hf⟩
          · simp only [runBody, ht, hm, hp] at h ⊢
            obtain ⟨ev, hmem, hf⟩ := ih (i + 1) (some ⟨d, g, [i]⟩) acc e h
            exact ⟨ev, by simp [hmem], hf⟩

theorem runBody_ok (ε : Type) (ops : PdfOps ε) (f : Option String)
    (hr : ∀ i, ∃ t, ops.pageText i = Except.ok t) (hsv : ∀ nm, ops.save nm = none) :
    ∀ (k i : Nat) (cur : Option Invoice) (acc : List Invoice),
      ∃ l, (runBody ops f i k cur acc).1 = Except.ok l := by
  intro k
  induction k with
  | zero =>
    intro i cur acc
    cases cur with
    | none => exact ⟨acc, by simp [runBody]⟩
    | some inv =>
      by_cases hp : passesFilter f inv.gstin
      · exact ⟨acc ++ [inv], by simp [runBody, hp, hsv (rawName inv)]⟩
      · exact ⟨acc, by simp [runBody, hp]⟩
  | succ k ih =>
    intro i cur acc
    obtain ⟨t, ht⟩ := hr i
    cases hm : pageMatch t with
    | none =>
      obtain ⟨l, hl⟩ := ih (i + 1) (appendPage i cur) acc
      exact ⟨l, by simp [runBody, ht, hm, hl]⟩
    | some p =>
      obtain ⟨d, g⟩ := p
      cases cur with
      | none =>
        obtain ⟨l, hl⟩ := ih (i + 1) (some ⟨d, g, [i]⟩) acc
        exact ⟨l, by simp [runBody, ht, hm, hl]⟩
      | some inv =>
        by_cases hp : passesFilter f inv.gstin
        · obtain ⟨l, hl⟩ := ih (i + 1) (some ⟨d, g, [i]⟩) (acc ++ [inv])
          exact ⟨l, by simp [runBody, ht, hm, hp, hsv (rawName inv), hl]⟩
        · obtain ⟨l, hl⟩ := ih (i + 1) (some ⟨d, g, [i]⟩) acc
          exact ⟨l, by simp [runBody, ht, hm, hp, hl]⟩

theorem runBody_fail_result (ε : Type) (ops : PdfOps ε) (f : Option String) :
    ∀ (k i : Nat) (cur : Option Invoice) (acc : List Invoice) (ev : Ev ε) (e : ε),
      ev ∈ (runBody ops f i k cur acc).2 → evFails ev e →
      (runBody ops f i k cur acc).1 = Except.error e := by
  intro k
  induction k with
  | zero =>
    intro i cur acc ev e hmem hf
    cases cur with
    | none => simp [runBody] at hmem
    | some inv =>
      by_cases hp : passesFilter f inv.gstin
      · cases hs : ops.save (rawName inv) with
        | none =>
          simp only [runBody, hp, if_true, hs] at hmem
          simp at hmem
          subst hmem
          simp [evFails] at hf
        | some e2 =>
          simp only [runBody, hp, if_true, hs] at hmem ⊢
          simp at hmem
          subst hmem
          simp only [evFails] at hf
          simp [hf]
      · simp [runBody, hp] at hmem
  | succ k ih =>
    intro i cur acc ev e hmem hf
    cases ht : ops.pageText i with
    | error e2 =>
      simp only [runBody, ht] at hmem ⊢
      simp at hmem
      subst hmem
      simp only [evFails] at hf
      simp [hf]
    | ok t =>
      cases hm : pageMatch t with
      | none =>
        simp only [runBody, ht, hm] at hmem ⊢
        rcases List.mem_cons.mp hmem with h1 | h1
        · subst h1; simp [evFails] at hf
        · exact ih (i + 1) (appendPage i cur) acc ev e h1 hf
      | some p =>
        obtain ⟨d, g⟩ := p
        cases cur with
        | none =>
          simp only [runBody, ht, hm] at hmem ⊢
          rcases List.mem_cons.mp hmem with h1 | h1
          · subst h1; simp [evFails] at hf
          · exact ih (i + 1) (some ⟨d, g, [i]⟩) acc ev e h1 hf
        | some inv =>
          by_cases hp : passesFilter f inv.gstin
          · cases hs : ops.save (rawName inv) with
            | some e2 =>
              simp only [runBody, ht, hm, hp, if_true, hs] at hmem ⊢
              rcases List.mem_cons.mp hmem with h1 | h1
              · subst h1; simp [evFails] at hf
              · simp at h1
                subst h1
                simp only [evFails] at hf
                simp [hf]
            | none =>
              simp only [runBody, ht, hm, hp, if_true, hs] at hmem ⊢
              rcases List.mem_cons.mp hmem with h1 | h1
              · subst h1; simp [evFails] at hf
              · rcases List.mem_cons.mp h1 with h2 | h2
                · subst h2; simp [evFails] at hf
                · exact ih (i + 1) (some ⟨d, g, [i]⟩) (acc ++ [inv]) ev e h2 hf
          · simp only [runBody, ht, hm, hp] at hmem ⊢
            rcases List.mem_cons.mp hmem with h1 | h1
            · subst h1; simp [evFails] at hf
            · exact ih (i + 1) (some ⟨d, g, [i]⟩) acc ev e h1 hf

/-- Claim C7: on every run, the source document is closed last on every
path (success or failure); every read or save failure occurring in the run
(a failure event of its trace) aborts the run and is returned verbatim to
the caller as the result — failures are propagated, never swallowed;
conversely any error returned to the caller is exactly the error of some
failed read or save in the trace; and when every read and save succeeds the
run returns a result list. -/
theorem split_run_closes_and_propagates (ε : Type) (ops : PdfOps ε)
    (n : Nat) (f : Option String) :
    (split_invoices_run ops n f).2.getLast? = some Ev.closeEv ∧
    (∀ ev ∈ (split_invoices_run ops n f).2, ∀ e, evFails ev e →
      (split_invoices_run ops n f).1 = Except.error e) ∧
    (∀ e, (split_invoices_run ops n f).1 = Except.error e →
      ∃ ev ∈ (split_invoices_run ops n f).2, evFails ev e) ∧
    ((∀ i, ∃ t, ops.pageText i = Except.ok t) → (∀ nm, ops.save nm = none) →
      ∃ l, (split_invoices_run ops n f).1 = Except.ok l) := by
  refine ⟨?_, ?_, ?_, ?_⟩
  · simp only [split_invoices_run]
    exact List.getLast?_concat _
  · intro ev hmem e hf
    simp only [split_invoices_run] at hmem ⊢
    rcases List.mem_append.mp hmem with h1 | h1
    · exact runBody_fail_result ε ops f n 0 none [] ev e h1 hf
    · have h2 : ev = Ev.closeEv := by simpa using h1
      subst h2
      simp [evFails] at hf
  · intro e h
    simp only [split_invoices_run] at h ⊢
    obtain ⟨ev, hmem, hf⟩ := runBody_error ε ops f n 0 none [] e h
    exact ⟨ev, List.mem_append_left _ hmem, hf⟩
  · intro hr hsv
    simp only [split_invoices_run]
    exact runBody_ok ε ops f hr hsv n 0 none []

theorem split_run_closes_and_propagates_witness :
    ((split_invoices_run opsCex 1 none).2.getLast? = some Ev.closeEv ∧
      (∀ ev ∈ (split_invoices_run opsCex 1 none).2, ∀ e, evFails ev e →
        (split_invoices_run opsCex 1 none).1 = Except.error e) ∧
      (∀ e, (split_invoices_run opsCex 1 none).1 = Except.error e →
        ∃ ev ∈ (split_invoices_run opsCex 1 none).2, evFails ev e) ∧
      ((∀ i, ∃ t, opsCex.pageText i = Except.ok t) → (∀ nm, opsCex.save nm = none) →
        ∃ l, (split_invoices_run opsCex 1 none).1 = Except.ok l)) ∧
    (split_invoices_run opsCex 1 none).1 = Except.error "boom" :=
  ⟨split_run_closes_and_propagates String opsCex 1 none, rfl⟩
